import Mathlib

/-!
Verification development for the generative-regressor workflow
(src/rampwf/workflows/generative_regressor_full.py).

The embedding models one row (one sample) of the batch for the prediction
path, since every numpy operation in `predict_submission` acts row-wise
independently; the sampling path (`step`) mixes rows, so it is modelled on
the whole batch.  Floating-point values are modelled by real numbers; an
IEEE NaN (as produced by scipy.stats.norm.logpdf on a non-positive scale)
is modelled by `Option ℝ` with `none` playing the role of NaN, which
propagates through every arithmetic operation exactly as NaN does.
-/

namespace GenerativeRegressorFull

/-! ### NaN-propagating arithmetic on `Option ℝ` -/

/-- Addition with NaN propagation. -/
noncomputable def oAdd (x y : Option ℝ) : Option ℝ := x.bind (fun a => y.map (fun b => a + b))

/-- Subtraction with NaN propagation. -/
noncomputable def oSub (x y : Option ℝ) : Option ℝ := x.bind (fun a => y.map (fun b => a - b))

/-- Multiplication with NaN propagation. -/
noncomputable def oMul (x y : Option ℝ) : Option ℝ := x.bind (fun a => y.map (fun b => a * b))

/-- Division with NaN propagation. -/
noncomputable def oDiv (x y : Option ℝ) : Option ℝ := x.bind (fun a => y.map (fun b => a / b))

/-- Exponential with NaN propagation. -/
noncomputable def oExp (x : Option ℝ) : Option ℝ := x.map Real.exp

/-- Sum of a list of possibly-NaN values; any NaN poisons the sum,
matching numpy summation. -/
noncomputable def oSum (l : List (Option ℝ)) : Option ℝ := l.foldr oAdd (some 0)

/-! ### Gaussian log-density (scipy.stats.norm.logpdf)

scipy returns NaN when the scale argument is not strictly positive; that is
the `none` branch below. -/

/-- Log-density of a Gaussian, NaN (`none`) when the standard deviation is
not positive, exactly as scipy.stats.norm.logpdf behaves. -/
noncomputable def normLogpdf (x mu s : ℝ) : Option ℝ :=
  if s ≤ 0 then none
  else some (-(((x - mu) / s) ^ 2) / 2 - Real.log (Real.sqrt (2 * Real.pi) * s))

/-- Column `i` of `mus = params[:, 0::2]` for one row. -/
noncomputable def musCol (params : ℕ → ℝ) (i : ℕ) : ℝ := params (2 * i)

/-- Column `i` of `sigmas = params[:, 1::2]` for one row. -/
noncomputable def sigmasCol (params : ℕ → ℝ) (i : ℕ) : ℝ := params (2 * i + 1)

/-! ### Conditional-weight reconstruction (predict_submission, lines 147-176)

The source loop is

  for i in range(n_targets):
      for j in range(nb_dists_per_dim):
          l_probs[:,j,i] = norm.logpdf(y[:, i], mus[:, i], sigmas[:, i])

Note that the component index `j` does not occur on the right-hand side:
the entry is the same for every component.  The embedding keeps the unused
component argument `c` to mirror the shape of the source array. -/

/-- Entry `l_probs[:, c, i]` of the source; the right-hand side of the
source assignment does not mention the component index. -/
noncomputable def l_probs (params y : ℕ → ℝ) (c i : ℕ) : Option ℝ :=
  normLogpdf (y i) (musCol params i) (sigmasCol params i)

/-- Entry `p_excluded[:, c, d]`: sum of `l_probs` over dimensions
strictly below `d` (the mask `mask[d:] = 0` keeps exactly those). -/
noncomputable def p_excluded (params y : ℕ → ℝ) (c d : ℕ) : Option ℝ :=
  oSum ((List.range d).map (fun i => l_probs params y c i))

/-- Entry `diffs[:, c, d]`: the inner sum over components `j` of
`weights_s[:, j] * exp(p_excluded[:, c, d] - p_excluded[:, j, d])`. -/
noncomputable def diffsVal (k : ℕ) (weights params y : ℕ → ℝ) (c d : ℕ) : Option ℝ :=
  oSum ((List.range k).map (fun j =>
    oMul (some (weights j)) (oExp (oSub (p_excluded params y c d) (p_excluded params y j d)))))

/-- Entry `final_w[:, c, d] = weights_s[:, c] / diffs[:, c, d]`. -/
noncomputable def final_w (k : ℕ) (weights params y : ℕ → ℝ) (c d : ℕ) : Option ℝ :=
  oDiv (some (weights c)) (diffsVal k weights params y c d)

/-- Column `m` of `norm_w = final_w.reshape(len(types), -1, order=F)`:
the Fortran-order reshape sends `final_w[:, c, d]` to column `d*k + c`. -/
noncomputable def norm_w (k : ℕ) (weights params y : ℕ → ℝ) (m : ℕ) : Option ℝ :=
  final_w k weights params y (m % k) (m / k)

/-! ### The formula of the specification, for comparison (claim C1)

Modelled from the spec: the exclusion likelihood of component `c` at
dimension `d` sums the Gaussian log-density of the realized value `y i`
under component `c` parameters `(mean, std)` of dimension `i`, for
`i < d`; the conditional weight is the balance-heuristic softmax.  In the
dimension-major layout of `params`, the mean of component `c` for
dimension `i` sits at `mus` column `i*k + c`. -/

/-- Gaussian log-density as a total real function (spec side, used only
under positive standard deviations). -/
noncomputable def gaussLogpdfR (x mu s : ℝ) : ℝ :=
  -(((x - mu) / s) ^ 2) / 2 - Real.log (Real.sqrt (2 * Real.pi) * s)

/-- Spec-side exclusion likelihood of component `c` at dimension `d`. -/
noncomputable def specExclusion (k : ℕ) (params y : ℕ → ℝ) (c d : ℕ) : ℝ :=
  ∑ i in Finset.range d,
    gaussLogpdfR (y i) (musCol params (i * k + c)) (sigmasCol params (i * k + c))

/-- Spec-side conditional weight of component `c` at dimension `d`. -/
noncomputable def specCondWeight (k : ℕ) (weights params y : ℕ → ℝ) (c d : ℕ) : ℝ :=
  weights c * Real.exp (specExclusion k params y c d) /
    ∑ j in Finset.range k, weights j * Real.exp (specExclusion k params y j d)

/-! ### Record packing (predict_submission, lines 179-202)

The source builds `result = np.empty(...)` and fills it with strided
assignments `result[:, i::step] = src[:, a::g]`.  Unwritten columns keep
the `np.empty` garbage, modelled by `none`.  A numpy strided assignment
raises a broadcast error unless the column counts agree or the source has
exactly one column; `checkAssign` captures that condition. -/

/-- One strided assignment `result[:, tgtStart::step] = src[:, srcStart::srcStep]`
with the source array having `srcTotal` columns. -/
structure Assign (α : Type) where
  tgtStart : ℕ
  srcStart : ℕ
  srcStep : ℕ
  srcTotal : ℕ
  src : ℕ → α

/-- Number of columns selected by a strided slice `[start::step]` of an
array with `total` columns. -/
def countFrom (total step start : ℕ) : ℕ :=
  if start < total then (total - start + step - 1) / step else 0

/-- The four groups of strided assignments of the packing loop, in source
order: the `sizes` block, the weight columns, the type columns, and the
parameter columns.  `kval` is the value `np.full` broadcasts for the
component count (the cast of `nb_dists_per_dim` to the entry type). -/
def assignList {α : Type} (kval : α) (k T Wn Wt Wp : ℕ)
    (weights types params : ℕ → α) : List (Assign α) :=
  ⟨0, 0, 1, T, fun _ => kval⟩ ::
  ((List.range k).map (fun c => ⟨1 + c, c, k, Wn, weights⟩) ++
   (List.range k).map (fun c => ⟨k + 1 + c, c, k, Wt, types⟩) ++
   (List.range (Wp / T)).map (fun m => ⟨2 * k + 1 + m, m, Wp / T, Wp, params⟩))

/-- Value an assignment writes into target column `j` (the one-column
source case is numpy broadcasting). -/
def assignVal {α : Type} (s : ℕ) (a : Assign α) (j : ℕ) : α :=
  if countFrom a.srcTotal a.srcStep a.srcStart = 1 then a.src a.srcStart
  else a.src (a.srcStart + (j - a.tgtStart) / s * a.srcStep)

/-- Execute one strided assignment over a partial result row. -/
def applyAssign {α : Type} (C s : ℕ) (res : ℕ → Option α) (a : Assign α) : ℕ → Option α :=
  fun j =>
    if j < C ∧ a.tgtStart ≤ j ∧ (j - a.tgtStart) % s = 0 then some (assignVal s a j)
    else res j

/-- Broadcast check of one strided assignment: column counts agree, or the
source has exactly one column. -/
def checkAssign {α : Type} (C s : ℕ) (a : Assign α) : Bool :=
  countFrom a.srcTotal a.srcStep a.srcStart == countFrom C s a.tgtStart ||
  countFrom a.srcTotal a.srcStep a.srcStart == 1

/-- The stride `step = (size_concatenated + n_targets) // n_targets`. -/
def encodeStep (T Wn Wt Wp : ℕ) : ℕ := (Wn + Wt + Wp + T) / T

/-- The record width `n_targets + size_concatenated`. -/
def encodeCols (T Wn Wt Wp : ℕ) : ℕ := T + (Wn + Wt + Wp)

/-- The packed result row: all strided assignments applied in source order
to the uninitialised (`none`) row. -/
def packFun {α : Type} (kval : α) (T Wn Wt Wp : ℕ)
    (weights types params : ℕ → α) : ℕ → Option α :=
  (assignList kval (Wt / T) T Wn Wt Wp weights types params).foldl
    (applyAssign (encodeCols T Wn Wt Wp) (encodeStep T Wn Wt Wp)) (fun _ => none)

/-- Record encoding: performs every strided assignment of the packing loop;
an assignment whose column counts cannot broadcast raises (numpy
ValueError), modelled by `Except.error`. -/
def encodeRecord {α : Type} (kval : α) (T Wn Wt Wp : ℕ)
    (weights types params : ℕ → α) : Except Unit (ℕ → Option α) :=
  if (assignList kval (Wt / T) T Wn Wt Wp weights types params).all
      (checkAssign (encodeCols T Wn Wt Wp) (encodeStep T Wn Wt Wp)) then
    Except.ok (packFun kval T Wn Wt Wp weights types params)
  else Except.error ()

/-! ### The prediction path (predict_submission) -/

/-- Input kind of `predict_submission`: a dataframe carries the y_-prefixed
truth columns, a plain numpy array does not, and on the numpy path the
local variable `y` is never bound. -/
inductive XInput where
  | frame (y : ℕ → ℝ)
  | plain

/-- Failures of the prediction path: the `assert nb_dists_curr <= max_dists`,
the Python UnboundLocalError on `y = y.values`, and a numpy broadcast
error inside the packing loop. -/
inductive PredErr where
  | assertMax
  | unboundY
  | shapeMismatch
deriving DecidableEq

/-- Lift the result of the packing step into the prediction path: a numpy
broadcast failure surfaces as `shapeMismatch`. -/
def wrapEncode {β : Type} (e : Except Unit β) : Except PredErr β :=
  match e with
  | Except.ok r => Except.ok r
  | Except.error _ => Except.error PredErr.shapeMismatch

/-- One row of `predict_submission` after the regressor returned
`(weights, types, params)` with `Wn`, `Wt` and `Wp` columns.  When every
type code is zero the weights are replaced by the reconstructed `norm_w`
(of width `(Wt/T)*T`); otherwise they pass through unchanged.  The record
entries live in `Option ℝ` (NaN-able reals), hence the packed row has type
`ℕ → Option (Option ℝ)` with outer `none` meaning an unwritten column. -/
noncomputable def predict_submission (maxDists T : ℕ) (x : XInput) (Wn Wt Wp : ℕ)
    (weights : ℕ → ℝ) (types : ℕ → ℤ) (params : ℕ → ℝ) :
    Except PredErr (ℕ → Option (Option ℝ)) :=
  if maxDists < Wt then Except.error PredErr.assertMax
  else if ∀ i, i < Wt → types i = 0 then
    match x with
    | XInput.plain => Except.error PredErr.unboundY
    | XInput.frame y =>
        wrapEncode (encodeRecord (some ((Wt / T : ℕ) : ℝ)) T (Wt / T * T) Wt Wp
          (fun m => norm_w (Wt / T) weights params y m)
          (fun i => some ((types i : ℝ))) (fun m => some (params m)))
  else
    wrapEncode (encodeRecord (some ((Wt / T : ℕ) : ℝ)) T Wn Wt Wp
      (fun i => some (weights i)) (fun i => some ((types i : ℝ)))
      (fun m => some (params m)))

/-! ### The sampling path (step, lines 229-261) -/

/-- The caller-supplied random source: `choice n p` draws an index from the
categorical distribution `p` over `n` outcomes, `mvnormal mean cov` draws
one vector from the multivariate normal with the given mean and
covariance.  All randomness of `step` flows through this structure. -/
structure Rng where
  choice : ℕ → (ℕ → ℝ) → ℕ
  mvnormal : (ℕ → ℝ) → (ℕ → ℕ → ℝ) → (ℕ → ℝ)

/-- Failures of the sampling path: a numpy reshape with a non-divisible
size, the categorical-probability validation of `rng.choice`, and an
out-of-range component index. -/
inductive StepErr where
  | reshapeFail
  | probCheck
  | indexOut
deriving DecidableEq

/-- Absolute tolerance of the probability check in numpy choice
(sqrt of machine epsilon, about 1.49e-8); the claims below only need that
it lies strictly between 0 and 1. -/
noncomputable def choiceTol : ℝ := 1e-8

/-- The `step` method on a batch of `n` rows, with the regressor output
`(weights, _, params)` of widths `Wn` and `Wp`.  It flattens the weights as
`weights.reshape(n_targets, -1)[0]`, validates the resulting probability
vector, draws one component, and returns a single sampled row built from
the parameters of batch row 0. -/
noncomputable def step (T n Wn Wp : ℕ) (weights params : ℕ → ℕ → ℝ) (rng : Rng) :
    Except StepErr (List (ℕ → ℝ)) :=
  if (n * Wn) % T = 0 ∧ (Wp / 2) % T = 0 then
    if (∀ q, q < n * Wn / T → 0 ≤ weights (q / Wn) (q % Wn)) ∧
        |(∑ q in Finset.range (n * Wn / T), weights (q / Wn) (q % Wn)) - 1| ≤ choiceTol then
      if rng.choice (n * Wn / T) (fun q => weights (q / Wn) (q % Wn)) < Wp / 2 / T then
        Except.ok [rng.mvnormal
          (fun t => params 0 (2 * (t * (Wp / 2 / T) +
            rng.choice (n * Wn / T) (fun q => weights (q / Wn) (q % Wn)))))
          (fun a b => if a = b ∧ a < T then
            (params 0 (2 * (a * (Wp / 2 / T) +
              rng.choice (n * Wn / T) (fun q => weights (q / Wn) (q % Wn))) + 1)) ^ 2
            else 0)]
      else Except.error StepErr.indexOut
    else Except.error StepErr.probCheck
  else Except.error StepErr.reshapeFail

/-- A concrete deterministic random source used for witnesses: the
categorical draw always returns index 0 and the multivariate-normal draw
returns its mean vector. -/
def rngId : Rng := ⟨fun _ _ => 0, fun mean _ => mean⟩

/-! ### Helper lemmas on option sums -/

@[simp] theorem oAdd_some_some (a b : ℝ) : oAdd (some a) (some b) = some (a + b) := rfl

@[simp] theorem oAdd_none_left (x : Option ℝ) : oAdd none x = none := rfl

@[simp] theorem oAdd_none_right (x : Option ℝ) : oAdd x none = none := by cases x <;> rfl

@[simp] theorem oSub_some_some (a b : ℝ) : oSub (some a) (some b) = some (a - b) := rfl

@[simp] theorem oSub_none_left (x : Option ℝ) : oSub none x = none := rfl

@[simp] theorem oSub_none_right (x : Option ℝ) : oSub x none = none := by cases x <;> rfl

@[simp] theorem oMul_some_some (a b : ℝ) : oMul (some a) (some b) = some (a * b) := rfl

@[simp] theorem oMul_none_left (x : Option ℝ) : oMul none x = none := rfl

@[simp] theorem oMul_none_right (x : Option ℝ) : oMul x none = none := by cases x <;> rfl

@[simp] theorem oDiv_some_some (a b : ℝ) : oDiv (some a) (some b) = some (a / b) := rfl

@[simp] theorem oDiv_none_left (x : Option ℝ) : oDiv none x = none := rfl

@[simp] theorem oDiv_none_right (x : Option ℝ) : oDiv x none = none := by cases x <;> rfl

@[simp] theorem oExp_some (a : ℝ) : oExp (some a) = some (Real.exp a) := rfl

@[simp] theorem oExp_none : oExp none = none := rfl

@[simp] theorem oSum_nil : oSum [] = some 0 := rfl

@[simp] theorem oSum_cons (a : Option ℝ) (l : List (Option ℝ)) :
    oSum (a :: l) = oAdd a (oSum l) := rfl

@[simp] theorem wrapEncode_ok {β : Type} (r : β) :
    wrapEncode (Except.ok r) = Except.ok r := rfl


theorem oSum_map_some (l : List ℕ) (f : ℕ → ℝ) :
    oSum (l.map (fun j => some (f j))) = some ((l.map f).sum) := by
  induction l with
  | nil => simp
  | cons a t ih => simp [ih]

theorem listSum_range (n : ℕ) (f : ℕ → ℝ) :
    ((List.range n).map f).sum = ∑ j in Finset.range n, f j := by
  induction n with
  | zero => simp
  | succ m ih => rw [List.range_succ]; simp [ih, Finset.sum_range_succ]

theorem oSum_range_some (n : ℕ) (f : ℕ → ℝ) :
    oSum ((List.range n).map (fun j => some (f j))) = some (∑ j in Finset.range n, f j) := by
  rw [oSum_map_some, listSum_range]

theorem oSum_eq_none {l : List (Option ℝ)} (h : none ∈ l) : oSum l = none := by
  induction l with
  | nil => cases h
  | cons a t ih =>
      rcases List.mem_cons.mp h with h1 | h1
      · rw [← h1]; simp
      · simp [ih h1]

theorem oSum_isSome {l : List (Option ℝ)} (h : ∀ x ∈ l, ∃ a, x = some a) :
    ∃ b, oSum l = some b := by
  induction l with
  | nil => exact ⟨0, rfl⟩
  | cons x t ih =>
      obtain ⟨a, ha⟩ := h x (List.mem_cons_self x t)
      obtain ⟨b, hb⟩ := ih (fun z hz => h z (List.mem_cons_of_mem x hz))
      exact ⟨a + b, by simp [ha, hb]⟩

/-! ### Facts about the reconstruction step -/

/-- The source entry `l_probs[:, c, i]` does not depend on `c`, hence
neither does `p_excluded`; this is definitional. -/
theorem p_excluded_indep (params y : ℕ → ℝ) (c c2 d : ℕ) :
    p_excluded params y c d = p_excluded params y c2 d := rfl

theorem p_excluded_isSome (params y : ℕ → ℝ) (c d : ℕ)
    (h : ∀ i, i < d → 0 < sigmasCol params i) :
    ∃ e, p_excluded params y c d = some e := by
  apply oSum_isSome
  intro x hx
  simp only [List.mem_map, List.mem_range] at hx
  obtain ⟨i, hi, rfl⟩ := hx
  simp only [l_probs, normLogpdf, if_neg (h i hi).not_le]
  exact ⟨_, rfl⟩

theorem diffsVal_of_pos (k : ℕ) (weights params y : ℕ → ℝ) (c d : ℕ)
    (h : ∀ i, i < d → 0 < sigmasCol params i) :
    diffsVal k weights params y c d = some (∑ j in Finset.range k, weights j) := by
  obtain ⟨e, he⟩ := p_excluded_isSome params y c d h
  have hall : ∀ j : ℕ, p_excluded params y j d = some e := fun j =>
    (p_excluded_indep params y j c d).trans he
  have hpt : ∀ j : ℕ, oMul (some (weights j))
      (oExp (oSub (p_excluded params y c d) (p_excluded params y j d)))
      = some (weights j) := by
    intro j
    rw [hall c, hall j]
    simp [Real.exp_zero]
  unfold diffsVal
  simp only [hpt]
  exact oSum_range_some k weights

theorem final_w_of_pos (k : ℕ) (weights params y : ℕ → ℝ) (c d : ℕ)
    (h : ∀ i, i < d → 0 < sigmasCol params i)
    (hw : ∑ j in Finset.range k, weights j = 1) :
    final_w k weights params y c d = some (weights c) := by
  unfold final_w
  rw [diffsVal_of_pos k weights params y c d h, hw]
  simp

theorem final_w_none (k : ℕ) (weights params y : ℕ → ℝ) (c d i0 : ℕ)
    (hk : 0 < k) (hi0 : i0 < d) (hs : sigmasCol params i0 ≤ 0) :
    final_w k weights params y c d = none := by
  have hpe : ∀ j : ℕ, p_excluded params y j d = none := by
    intro j
    apply oSum_eq_none
    simp only [List.mem_map, List.mem_range]
    exact ⟨i0, hi0, by simp [l_probs, normLogpdf, hs]⟩
  have hd : diffsVal k weights params y c d = none := by
    apply oSum_eq_none
    simp only [List.mem_map, List.mem_range]
    exact ⟨0, hk, by rw [hpe c, hpe 0]; simp⟩
  unfold final_w
  rw [hd]
  simp

theorem norm_w_index (k d c : ℕ) (hc : c < k) (weights params y : ℕ → ℝ) :
    norm_w k weights params y (d * k + c) = final_w k weights params y c d := by
  have hk : 0 < k := Nat.pos_of_ne_zero (by omega)
  have h1 : (d * k + c) % k = c := by
    rw [Nat.add_comm, Nat.add_mul_mod_self_right]
    exact Nat.mod_eq_of_lt hc
  have h2 : (d * k + c) / k = d := by
    rw [Nat.add_comm, Nat.add_mul_div_right _ _ hk, Nat.div_eq_of_lt hc, Nat.zero_add]
  unfold norm_w
  rw [h1, h2]

/-! ### Facts about the packing step -/

theorem foldl_applyAssign_skip {α : Type} (C s : ℕ) (l : List (Assign α))
    (res : ℕ → Option α) (j : ℕ)
    (h : ∀ a ∈ l, ¬(j < C ∧ a.tgtStart ≤ j ∧ (j - a.tgtStart) % s = 0)) :
    l.foldl (applyAssign C s) res j = res j := by
  induction l generalizing res with
  | nil => rfl
  | cons a t ih =>
      rw [List.foldl_cons, ih _ ]
      · unfold applyAssign
        rw [if_neg (h a (List.mem_cons_self a t))]
      · exact fun b hb => h b (List.mem_cons_of_mem a hb)

theorem foldl_applyAssign_write {α : Type} (C s : ℕ) (l : List (Assign α)) :
    ∀ (res : ℕ → Option α) (j : ℕ) (a : Assign α), a ∈ l →
    (j < C ∧ a.tgtStart ≤ j ∧ (j - a.tgtStart) % s = 0) →
    (∀ b ∈ l, (j < C ∧ b.tgtStart ≤ j ∧ (j - b.tgtStart) % s = 0) → b = a) →
    l.foldl (applyAssign C s) res j = some (assignVal s a j) := by
  induction l with
  | nil => intro res j a ha _ _; cases ha
  | cons b t ih =>
      intro res j a ha hw huniq
      rw [List.foldl_cons]
      by_cases hat : a ∈ t
      · exact ih _ j a hat hw (fun x hx hwx => huniq x (List.mem_cons_of_mem b hx) hwx)
      · have hba : b = a := by
          rcases List.mem_cons.mp ha with h1 | h1
          · exact h1.symm
          · exact absurd h1 hat
        have hnt : ∀ x ∈ t, ¬(j < C ∧ x.tgtStart ≤ j ∧ (j - x.tgtStart) % s = 0) := by
          intro x hx hwx
          have hxa := huniq x (List.mem_cons_of_mem b hx) hwx
          subst hxa
          exact hat hx
        rw [foldl_applyAssign_skip C s t _ j hnt]
        show applyAssign C s res b j = _
        unfold applyAssign
        rw [hba, if_pos hw]

theorem start_eq_of_hit {s tb j : ℕ} (hsb : tb < s) (hle : tb ≤ j)
    (hmod : (j - tb) % s = 0) : tb = j % s := by
  obtain ⟨x, hx⟩ := Nat.dvd_of_mod_eq_zero hmod
  have hj : j = tb + s * x := by rw [← hx]; omega
  rw [hj, Nat.mul_comm, Nat.add_mul_mod_self_right, Nat.mod_eq_of_lt hsb]

theorem block_mod (d s t : ℕ) (ht : t < s) : (d * s + t) % s = t := by
  rw [Nat.mul_comm, Nat.mul_add_mod, Nat.mod_eq_of_lt ht]

theorem mem_assignList {α : Type} {kval : α} {k T Wn Wt Wp : ℕ}
    {weights types params : ℕ → α} {a : Assign α} :
    a ∈ assignList kval k T Wn Wt Wp weights types params ↔
      a = ⟨0, 0, 1, T, fun _ => kval⟩ ∨
      (∃ c, c < k ∧ a = ⟨1 + c, c, k, Wn, weights⟩) ∨
      (∃ c, c < k ∧ a = ⟨k + 1 + c, c, k, Wt, types⟩) ∨
      (∃ m, m < Wp / T ∧ a = ⟨2 * k + 1 + m, m, Wp / T, Wp, params⟩) := by
  simp only [assignList, List.mem_cons, List.mem_append, List.mem_map, List.mem_range]
  constructor
  · rintro (h | ((⟨c, hc, h⟩ | ⟨c, hc, h⟩) | ⟨m, hm, h⟩))
    · exact Or.inl h
    · exact Or.inr (Or.inl ⟨c, hc, h.symm⟩)
    · exact Or.inr (Or.inr (Or.inl ⟨c, hc, h.symm⟩))
    · exact Or.inr (Or.inr (Or.inr ⟨m, hm, h.symm⟩))
  · rintro (h | ⟨c, hc, h⟩ | ⟨c, hc, h⟩ | ⟨m, hm, h⟩)
    · exact Or.inl h
    · exact Or.inr (Or.inl (Or.inl ⟨c, hc, h.symm⟩))
    · exact Or.inr (Or.inl (Or.inr ⟨c, hc, h.symm⟩))
    · exact Or.inr (Or.inr ⟨m, hm, h.symm⟩)

theorem assignList_tgtStart_le {α : Type} {kval : α} {k T Wn Wt Wp : ℕ}
    {weights types params : ℕ → α} {a : Assign α}
    (ha : a ∈ assignList kval k T Wn Wt Wp weights types params) :
    a.tgtStart ≤ 2 * k + Wp / T := by
  rcases mem_assignList.mp ha with h | ⟨c, hc, h⟩ | ⟨c, hc, h⟩ | ⟨m, hm, h⟩
  · subst h
    exact Nat.zero_le _
  · subst h
    show 1 + c ≤ 2 * k + Wp / T
    exact le_trans (by omega : 1 + c ≤ 2 * k) (Nat.le_add_right _ _)
  · subst h
    show k + 1 + c ≤ 2 * k + Wp / T
    exact le_trans (by omega : k + 1 + c ≤ 2 * k) (Nat.le_add_right _ _)
  · subst h
    show 2 * k + 1 + m ≤ 2 * k + Wp / T
    omega

theorem assignList_inj {α : Type} {kval : α} {k T Wn Wt Wp : ℕ}
    {weights types params : ℕ → α} {a b : Assign α}
    (ha : a ∈ assignList kval k T Wn Wt Wp weights types params)
    (hb : b ∈ assignList kval k T Wn Wt Wp weights types params)
    (hst : a.tgtStart = b.tgtStart) : a = b := by
  rcases mem_assignList.mp ha with h | ⟨c, hc, h⟩ | ⟨c, hc, h⟩ | ⟨m, hm, h⟩ <;>
    rcases mem_assignList.mp hb with h2 | ⟨c2, hc2, h2⟩ | ⟨c2, hc2, h2⟩ | ⟨m2, hm2, h2⟩ <;>
    subst h <;> subst h2 <;> dsimp only at hst <;>
    first
      | rfl
      | (have hcc : c = c2 := by omega
         subst hcc
         rfl)
      | (have hcc : m = m2 := by omega
         subst hcc
         rfl)
      | (exfalso; omega)

theorem countFrom_mul (st Tn i : ℕ) (hst : 0 < st) (hi : i < st) :
    countFrom (st * Tn) st i = Tn := by
  unfold countFrom
  by_cases h : i < st * Tn
  · rw [if_pos h]
    have h1 : st * Tn - i + st - 1 = st * Tn + (st - 1 - i) := by omega
    rw [h1, Nat.mul_add_div hst, Nat.div_eq_of_lt (by omega)]
    rfl
  · rw [if_neg h]
    by_contra hne
    have h2 : 1 ≤ Tn := by omega
    have h3 : st * 1 ≤ st * Tn := Nat.mul_le_mul_left st h2
    omega

theorem countFrom_one (T : ℕ) : countFrom T 1 0 = T := by
  unfold countFrom
  rcases Nat.eq_zero_or_pos T with h | h
  · subst h; rfl
  · rw [if_pos h]; omega

theorem countFrom_cols (k T i : ℕ) (hi : i < 4 * k + 1) :
    countFrom (T * (4 * k + 1)) (4 * k + 1) i = T := by
  rw [Nat.mul_comm]
  exact countFrom_mul (4 * k + 1) T i (by omega) hi

theorem kdiv (k T : ℕ) (hT : 0 < T) : k * T / T = k := Nat.mul_div_cancel k hT

theorem Pdiv (k T : ℕ) (hT : 0 < T) : 2 * (k * T) / T = 2 * k := by
  rw [show 2 * (k * T) = (2 * k) * T by ring, Nat.mul_div_cancel _ hT]

theorem encodeStep_div (k T : ℕ) (hT : 0 < T) :
    encodeStep T (k * T) (k * T) (2 * (k * T)) = 4 * k + 1 := by
  unfold encodeStep
  rw [show k * T + k * T + 2 * (k * T) + T = (4 * k + 1) * T by ring, Nat.mul_div_cancel _ hT]

theorem encodeCols_div (k T : ℕ) :
    encodeCols T (k * T) (k * T) (2 * (k * T)) = T * (4 * k + 1) := by
  unfold encodeCols
  ring

theorem encodeRecord_div {α : Type} (kval : α) (k T : ℕ) (hT : 0 < T)
    (w t p : ℕ → α) :
    encodeRecord kval T (k * T) (k * T) (2 * (k * T)) w t p
      = Except.ok (packFun kval T (k * T) (k * T) (2 * (k * T)) w t p) := by
  unfold encodeRecord
  have hall : ∀ a ∈ assignList kval (k * T / T) T (k * T) (k * T) (2 * (k * T)) w t p,
      checkAssign (encodeCols T (k * T) (k * T) (2 * (k * T)))
        (encodeStep T (k * T) (k * T) (2 * (k * T))) a = true := by
    intro a ha
    rw [kdiv k T hT] at ha
    rw [encodeStep_div k T hT, encodeCols_div k T]
    have hP : 2 * (k * T) / T = 2 * k := Pdiv k T hT
    rcases mem_assignList.mp ha with h | ⟨c, hc, h⟩ | ⟨c, hc, h⟩ | ⟨m, hm, h⟩ <;>
      subst h <;> unfold checkAssign <;> dsimp only
    · rw [countFrom_one, countFrom_cols k T 0 (by omega)]
      simp
    · rw [countFrom_mul k T c (by omega) hc, countFrom_cols k T (1 + c) (by omega)]
      simp
    · rw [countFrom_mul k T c (by omega) hc, countFrom_cols k T (k + 1 + c) (by omega)]
      simp
    · rw [hP] at hm
      rw [hP, show 2 * (k * T) = (2 * k) * T by ring,
        countFrom_mul (2 * k) T m (by omega) hm,
        countFrom_cols k T (2 * k + 1 + m) (by omega)]
      simp
  rw [if_pos (List.all_eq_true.mpr hall)]

theorem packFun_write {α : Type} (kval : α) (k T : ℕ) (hT : 0 < T)
    (w t p : ℕ → α) (d : ℕ) (hd : d < T) (a : Assign α)
    (ha : a ∈ assignList kval k T (k * T) (k * T) (2 * (k * T)) w t p)
    (hlt : a.tgtStart < 4 * k + 1) :
    packFun kval T (k * T) (k * T) (2 * (k * T)) w t p (d * (4 * k + 1) + a.tgtStart)
      = some (assignVal (4 * k + 1) a (d * (4 * k + 1) + a.tgtStart)) := by
  unfold packFun
  rw [kdiv k T hT, encodeStep_div k T hT, encodeCols_div k T]
  have hP : 2 * (k * T) / T = 2 * k := Pdiv k T hT
  have hsC : d * (4 * k + 1) + a.tgtStart < T * (4 * k + 1) := by
    have h1 : (d + 1) * (4 * k + 1) ≤ T * (4 * k + 1) := Nat.mul_le_mul_right (4 * k + 1) hd
    have h2 : (d + 1) * (4 * k + 1) = d * (4 * k + 1) + (4 * k + 1) := by ring
    omega
  have hhit : d * (4 * k + 1) + a.tgtStart < T * (4 * k + 1) ∧
      a.tgtStart ≤ d * (4 * k + 1) + a.tgtStart ∧
      (d * (4 * k + 1) + a.tgtStart - a.tgtStart) % (4 * k + 1) = 0 := by
    refine ⟨hsC, by omega, ?_⟩
    rw [show d * (4 * k + 1) + a.tgtStart - a.tgtStart = d * (4 * k + 1) by omega,
      Nat.mul_mod_left]
  apply foldl_applyAssign_write (T * (4 * k + 1)) (4 * k + 1) _ _ _ a ha hhit
  intro b hb hwb
  have hble : b.tgtStart ≤ 2 * k + 2 * (k * T) / T := assignList_tgtStart_le hb
  rw [hP] at hble
  have hbs : b.tgtStart < 4 * k + 1 := by omega
  have hbe : b.tgtStart = (d * (4 * k + 1) + a.tgtStart) % (4 * k + 1) :=
    start_eq_of_hit hbs hwb.2.1 hwb.2.2
  have hae : (d * (4 * k + 1) + a.tgtStart) % (4 * k + 1) = a.tgtStart :=
    block_mod d (4 * k + 1) a.tgtStart hlt
  exact assignList_inj hb ha (by omega)

theorem packFun_sizes {α : Type} (kval : α) (k T : ℕ) (hT : 0 < T) (w t p : ℕ → α)
    (d : ℕ) (hd : d < T) :
    packFun kval T (k * T) (k * T) (2 * (k * T)) w t p (d * (4 * k + 1)) = some kval := by
  have ha : (⟨0, 0, 1, T, fun _ => kval⟩ : Assign α)
      ∈ assignList kval k T (k * T) (k * T) (2 * (k * T)) w t p :=
    mem_assignList.mpr (Or.inl rfl)
  have hmain := packFun_write kval k T hT w t p d hd _ ha (by dsimp only; omega)
  dsimp only at hmain
  rw [Nat.add_zero] at hmain
  rw [hmain]
  have hv : assignVal (4 * k + 1) (⟨0, 0, 1, T, fun _ => kval⟩ : Assign α)
      (d * (4 * k + 1)) = kval := by
    unfold assignVal
    split <;> rfl
  rw [hv]

theorem packFun_weights {α : Type} (kval : α) (k T : ℕ) (hT : 0 < T) (w t p : ℕ → α)
    (d c : ℕ) (hd : d < T) (hc : c < k) :
    packFun kval T (k * T) (k * T) (2 * (k * T)) w t p (d * (4 * k + 1) + (1 + c))
      = some (w (d * k + c)) := by
  have ha : (⟨1 + c, c, k, k * T, w⟩ : Assign α)
      ∈ assignList kval k T (k * T) (k * T) (2 * (k * T)) w t p :=
    mem_assignList.mpr (Or.inr (Or.inl ⟨c, hc, rfl⟩))
  have hmain := packFun_write kval k T hT w t p d hd _ ha (by dsimp only; omega)
  dsimp only at hmain
  rw [hmain]
  have hv : assignVal (4 * k + 1) (⟨1 + c, c, k, k * T, w⟩ : Assign α)
      (d * (4 * k + 1) + (1 + c)) = w (d * k + c) := by
    unfold assignVal
    dsimp only
    simp only [countFrom_mul k T c (by omega) hc]
    by_cases hT1 : T = 1
    · rw [if_pos hT1]
      have hd0 : d = 0 := by omega
      subst hd0
      congr 1
      omega
    · rw [if_neg hT1]
      rw [show d * (4 * k + 1) + (1 + c) - (1 + c) = d * (4 * k + 1) by omega,
        Nat.mul_div_cancel d (by omega : 0 < 4 * k + 1)]
      congr 1
      ring
  rw [hv]

theorem packFun_types {α : Type} (kval : α) (k T : ℕ) (hT : 0 < T) (w t p : ℕ → α)
    (d c : ℕ) (hd : d < T) (hc : c < k) :
    packFun kval T (k * T) (k * T) (2 * (k * T)) w t p (d * (4 * k + 1) + (k + 1 + c))
      = some (t (d * k + c)) := by
  have ha : (⟨k + 1 + c, c, k, k * T, t⟩ : Assign α)
      ∈ assignList kval k T (k * T) (k * T) (2 * (k * T)) w t p :=
    mem_assignList.mpr (Or.inr (Or.inr (Or.inl ⟨c, hc, rfl⟩)))
  have hmain := packFun_write kval k T hT w t p d hd _ ha (by dsimp only; omega)
  dsimp only at hmain
  rw [hmain]
  have hv : assignVal (4 * k + 1) (⟨k + 1 + c, c, k, k * T, t⟩ : Assign α)
      (d * (4 * k + 1) + (k + 1 + c)) = t (d * k + c) := by
    unfold assignVal
    dsimp only
    simp only [countFrom_mul k T c (by omega) hc]
    by_cases hT1 : T = 1
    · rw [if_pos hT1]
      have hd0 : d = 0 := by omega
      subst hd0
      congr 1
      omega
    · rw [if_neg hT1]
      rw [show d * (4 * k + 1) + (k + 1 + c) - (k + 1 + c) = d * (4 * k + 1) by omega,
        Nat.mul_div_cancel d (by omega : 0 < 4 * k + 1)]
      congr 1
      ring
  rw [hv]

theorem packFun_params {α : Type} (kval : α) (k T : ℕ) (hT : 0 < T) (w t p : ℕ → α)
    (d m : ℕ) (hd : d < T) (hm : m < 2 * k) :
    packFun kval T (k * T) (k * T) (2 * (k * T)) w t p (d * (4 * k + 1) + (2 * k + 1 + m))
      = some (p (d * (2 * k) + m)) := by
  have hP : 2 * (k * T) / T = 2 * k := Pdiv k T hT
  have ha : (⟨2 * k + 1 + m, m, 2 * (k * T) / T, 2 * (k * T), p⟩ : Assign α)
      ∈ assignList kval k T (k * T) (k * T) (2 * (k * T)) w t p :=
    mem_assignList.mpr (Or.inr (Or.inr (Or.inr ⟨m, by omega, rfl⟩)))
  have hmain := packFun_write kval k T hT w t p d hd _ ha (by dsimp only; omega)
  dsimp only at hmain
  rw [hmain]
  have hv : assignVal (4 * k + 1) (⟨2 * k + 1 + m, m, 2 * (k * T) / T, 2 * (k * T), p⟩ : Assign α)
      (d * (4 * k + 1) + (2 * k + 1 + m)) = p (d * (2 * k) + m) := by
    unfold assignVal
    dsimp only
    simp only [hP]
    simp only [show 2 * (k * T) = (2 * k) * T by ring]
    simp only [countFrom_mul (2 * k) T m (by omega) hm]
    by_cases hT1 : T = 1
    · rw [if_pos hT1]
      have hd0 : d = 0 := by omega
      subst hd0
      congr 1
      omega
    · rw [if_neg hT1]
      rw [show d * (4 * k + 1) + (2 * k + 1 + m) - (2 * k + 1 + m) = d * (4 * k + 1) by omega,
        Nat.mul_div_cancel d (by omega : 0 < 4 * k + 1)]
      congr 1
      ring
  rw [hv]

/-! ### Branch lemmas for the prediction path -/

theorem predict_submission_frame (maxDists T Wn Wt Wp : ℕ) (y weights params : ℕ → ℝ)
    (types : ℕ → ℤ) (hmax : ¬ maxDists < Wt) (hz : ∀ i, i < Wt → types i = 0) :
    predict_submission maxDists T (XInput.frame y) Wn Wt Wp weights types params
      = wrapEncode (encodeRecord (some ((Wt / T : ℕ) : ℝ)) T (Wt / T * T) Wt Wp
          (fun m => norm_w (Wt / T) weights params y m)
          (fun i => some ((types i : ℝ))) (fun m => some (params m))) := by
  unfold predict_submission
  rw [if_neg hmax, if_pos hz]

theorem predict_submission_pass (maxDists T : ℕ) (x : XInput) (Wn Wt Wp : ℕ)
    (weights params : ℕ → ℝ) (types : ℕ → ℤ)
    (hmax : ¬ maxDists < Wt) (hnz : ¬ ∀ i, i < Wt → types i = 0) :
    predict_submission maxDists T x Wn Wt Wp weights types params
      = wrapEncode (encodeRecord (some ((Wt / T : ℕ) : ℝ)) T Wn Wt Wp
          (fun i => some (weights i)) (fun i => some ((types i : ℝ)))
          (fun m => some (params m))) := by
  unfold predict_submission
  rw [if_neg hmax, if_neg hnz]

/-! ### Claim theorems -/

/-- Claim C3: for every all-Gaussian prediction with positive stds (and
the marginal weights obeying the data-model invariant of summing to 1 for
the dimension group), the k conditional weights produced by the
reconstruction step for any sample and target dimension sum to 1.0 within
1e-9 absolute tolerance. -/
theorem claimC3_weightSum (k T : ℕ) (weights params y : ℕ → ℝ)
    (hk : 0 < k)
    (hsig : ∀ m, m < k * T → 0 < sigmasCol params m)
    (hw : ∑ j in Finset.range k, weights j = 1)
    (d : ℕ) (hd : d < T) :
    ∃ s, oSum ((List.range k).map (fun c => norm_w k weights params y (d * k + c)))
        = some s ∧ |s - 1| ≤ 1e-9 := by
  have hpos : ∀ i, i < d → 0 < sigmasCol params i := by
    intro i hi
    apply hsig
    have hTk : T ≤ k * T := Nat.le_mul_of_pos_left T hk
    omega
  have hfw : ∀ c ∈ List.range k,
      norm_w k weights params y (d * k + c) = some (weights c) := by
    intro c hc
    rw [norm_w_index k d c (List.mem_range.mp hc)]
    exact final_w_of_pos k weights params y c d hpos hw
  refine ⟨1, ?_, by norm_num⟩
  rw [List.map_congr_left hfw, oSum_range_some, hw]

/-- Claim C3 witness: a single Gaussian component on one target dimension
with weight 1 and std 1. -/
theorem claimC3_weightSum_witness :
    (∀ m, m < 1 * 1 → (0:ℝ) < sigmasCol (fun _ => 1) m) ∧
    (∑ j in Finset.range 1, (fun _ => (1:ℝ)) j = 1) ∧
    ∃ s, oSum ((List.range 1).map (fun c =>
        norm_w 1 (fun _ => (1:ℝ)) (fun _ => 1) (fun _ => 0) (0 * 1 + c)))
        = some s ∧ |s - 1| ≤ 1e-9 :=
  ⟨fun m _ => by norm_num [sigmasCol],
   by simp,
   claimC3_weightSum 1 1 (fun _ => 1) (fun _ => 1) (fun _ => 0) (by norm_num)
     (fun m _ => by norm_num [sigmasCol]) (by simp) 0 (by norm_num)⟩

/-- Claim C6: for an all-Gaussian prediction with positive stds whose
marginal weight vector is one-hot, the reconstructed conditional weight of
every component at every dimension equals the marginal (one-hot) value. -/
theorem claimC6_onehot (k T h : ℕ) (weights params y : ℕ → ℝ)
    (hh : h < k)
    (h1 : weights h = 1)
    (h0 : ∀ c, c < k → c ≠ h → weights c = 0)
    (hsig : ∀ m, m < k * T → 0 < sigmasCol params m)
    (d c : ℕ) (hd : d < T) (hc : c < k) :
    norm_w k weights params y (d * k + c) = some (weights c) := by
  have hk : 0 < k := by omega
  have hpos : ∀ i, i < d → 0 < sigmasCol params i := by
    intro i hi
    apply hsig
    have hTk : T ≤ k * T := Nat.le_mul_of_pos_left T hk
    omega
  have hw : ∑ j in Finset.range k, weights j = 1 := by
    calc ∑ j in Finset.range k, weights j
        = weights h :=
          Finset.sum_eq_single h
            (fun b hb hbne => h0 b (Finset.mem_range.mp hb) hbne)
            (fun hnot => absurd (Finset.mem_range.mpr hh) hnot)
      _ = 1 := h1
  rw [norm_w_index k d c hc]
  exact final_w_of_pos k weights params y c d hpos hw

/-- Claim C6 witness: two components with one-hot weights (1, 0), one
dimension; the reconstructed weight of component 1 is its marginal 0. -/
theorem claimC6_onehot_witness :
    ((fun c => if c = 0 then (1:ℝ) else 0) 0 = 1) ∧
    norm_w 2 (fun c => if c = 0 then (1:ℝ) else 0) (fun _ => 1) (fun _ => 0)
        (0 * 2 + 1) = some ((fun c => if c = 0 then (1:ℝ) else 0) 1) :=
  ⟨by norm_num,
   claimC6_onehot 2 1 0 (fun c => if c = 0 then (1:ℝ) else 0) (fun _ => 1) (fun _ => 0)
     (by norm_num) (by norm_num)
     (fun c _ hcne => by simp [hcne])
     (fun m _ => by norm_num [sigmasCol]) 0 1 (by norm_num) (by norm_num)⟩

/-- Claim C2: with `n_targets = T` dimensions and `k` components per
dimension (weights and types of width `k*T`, params of width `2*k*T`), the
record has `T` equal-width blocks of `step` columns starting at column 0,
and block `d` holds, in order, the component count, the `k` weights of
dimension `d`, the `k` type codes of dimension `d`, and the `2k`
interleaved parameters of dimension `d`, each copied unchanged. -/
theorem claimC2_blockLayout {α : Type} (kval : α) (k T : ℕ) (hT : 0 < T)
    (w t p : ℕ → α) :
    encodeRecord kval T (k * T) (k * T) (2 * (k * T)) w t p
      = Except.ok (packFun kval T (k * T) (k * T) (2 * (k * T)) w t p) ∧
    encodeCols T (k * T) (k * T) (2 * (k * T))
      = T * encodeStep T (k * T) (k * T) (2 * (k * T)) ∧
    ∀ d, d < T →
      packFun kval T (k * T) (k * T) (2 * (k * T)) w t p
          (d * encodeStep T (k * T) (k * T) (2 * (k * T))) = some kval ∧
      (∀ c, c < k →
        packFun kval T (k * T) (k * T) (2 * (k * T)) w t p
          (d * encodeStep T (k * T) (k * T) (2 * (k * T)) + (1 + c))
          = some (w (d * k + c))) ∧
      (∀ c, c < k →
        packFun kval T (k * T) (k * T) (2 * (k * T)) w t p
          (d * encodeStep T (k * T) (k * T) (2 * (k * T)) + (k + 1 + c))
          = some (t (d * k + c))) ∧
      (∀ m, m < 2 * k →
        packFun kval T (k * T) (k * T) (2 * (k * T)) w t p
          (d * encodeStep T (k * T) (k * T) (2 * (k * T)) + (2 * k + 1 + m))
          = some (p (d * (2 * k) + m))) := by
  refine ⟨encodeRecord_div kval k T hT w t p, ?_, ?_⟩
  · rw [encodeStep_div k T hT, encodeCols_div k T]
  · intro d hd
    rw [encodeStep_div k T hT]
    exact ⟨packFun_sizes kval k T hT w t p d hd,
           fun c hc => packFun_weights kval k T hT w t p d c hd hc,
           fun c hc => packFun_types kval k T hT w t p d c hd hc,
           fun m hm => packFun_params kval k T hT w t p d m hd hm⟩

/-- Claim C2 witness: one dimension, one component, concrete rational
arrays. -/
theorem claimC2_blockLayout_witness :
    (0:ℕ) < 1 ∧
    (encodeRecord (9:ℚ) 1 (1 * 1) (1 * 1) (2 * (1 * 1)) (fun i : ℕ => (i:ℚ))
        (fun i : ℕ => (i:ℚ) + 10) (fun i : ℕ => (i:ℚ) + 20)
      = Except.ok (packFun (9:ℚ) 1 (1 * 1) (1 * 1) (2 * (1 * 1)) (fun i : ℕ => (i:ℚ))
        (fun i : ℕ => (i:ℚ) + 10) (fun i : ℕ => (i:ℚ) + 20)) ∧
    encodeCols 1 (1 * 1) (1 * 1) (2 * (1 * 1))
      = 1 * encodeStep 1 (1 * 1) (1 * 1) (2 * (1 * 1)) ∧
    ∀ d, d < 1 →
      packFun (9:ℚ) 1 (1 * 1) (1 * 1) (2 * (1 * 1)) (fun i : ℕ => (i:ℚ))
          (fun i : ℕ => (i:ℚ) + 10) (fun i : ℕ => (i:ℚ) + 20)
          (d * encodeStep 1 (1 * 1) (1 * 1) (2 * (1 * 1))) = some 9 ∧
      (∀ c, c < 1 →
        packFun (9:ℚ) 1 (1 * 1) (1 * 1) (2 * (1 * 1)) (fun i : ℕ => (i:ℚ))
          (fun i : ℕ => (i:ℚ) + 10) (fun i : ℕ => (i:ℚ) + 20)
          (d * encodeStep 1 (1 * 1) (1 * 1) (2 * (1 * 1)) + (1 + c))
          = some ((fun i : ℕ => (i:ℚ)) (d * 1 + c))) ∧
      (∀ c, c < 1 →
        packFun (9:ℚ) 1 (1 * 1) (1 * 1) (2 * (1 * 1)) (fun i : ℕ => (i:ℚ))
          (fun i : ℕ => (i:ℚ) + 10) (fun i : ℕ => (i:ℚ) + 20)
          (d * encodeStep 1 (1 * 1) (1 * 1) (2 * (1 * 1)) + (1 + 1 + c))
          = some ((fun i : ℕ => (i:ℚ) + 10) (d * 1 + c))) ∧
      (∀ m, m < 2 * 1 →
        packFun (9:ℚ) 1 (1 * 1) (1 * 1) (2 * (1 * 1)) (fun i : ℕ => (i:ℚ))
          (fun i : ℕ => (i:ℚ) + 10) (fun i : ℕ => (i:ℚ) + 20)
          (d * encodeStep 1 (1 * 1) (1 * 1) (2 * (1 * 1)) + (2 * 1 + 1 + m))
          = some ((fun i : ℕ => (i:ℚ) + 20) (d * (2 * 1) + m)))) :=
  ⟨by norm_num,
   claimC2_blockLayout (9:ℚ) 1 1 (by norm_num) (fun i : ℕ => (i:ℚ))
     (fun i : ℕ => (i:ℚ) + 10) (fun i : ℕ => (i:ℚ) + 20)⟩

/-- Claim C10: calling `predict_submission` on a plain numpy array while
the regressor returns all-zero type codes fails with the unbound-name
error on `y = y.values` before any record is produced; the truth values
are only ever extracted on the dataframe path. -/
theorem claimC10_unboundY (maxDists T Wn Wt Wp : ℕ)
    (weights : ℕ → ℝ) (types : ℕ → ℤ) (params : ℕ → ℝ)
    (hmax : Wt ≤ maxDists) (hz : ∀ i, i < Wt → types i = 0) :
    predict_submission maxDists T XInput.plain Wn Wt Wp weights types params
      = Except.error PredErr.unboundY := by
  unfold predict_submission
  rw [if_neg (by omega), if_pos hz]

/-- Claim C10 witness: a concrete all-Gaussian prediction on a numpy
input. -/
theorem claimC10_unboundY_witness :
    (1:ℕ) ≤ 2 ∧
    predict_submission 2 1 XInput.plain 1 1 2 (fun _ => 1) (fun _ => 0) (fun _ => 1)
      = Except.error PredErr.unboundY :=
  ⟨by norm_num,
   claimC10_unboundY 2 1 1 1 2 (fun _ => 1) (fun _ => 0) (fun _ => 1)
     (by norm_num) (fun i _ => rfl)⟩

/-- Claim C9: when at least one type code is nonzero, the reconstruction
branch is skipped: the record receives the marginal weights untouched, and
the type and parameter entries are copied unchanged. -/
theorem claimC9_passthrough (maxDists k T : ℕ) (x : XInput)
    (weights : ℕ → ℝ) (types : ℕ → ℤ) (params : ℕ → ℝ)
    (hT : 0 < T) (hmax : k * T ≤ maxDists)
    (hnz : ∃ i, i < k * T ∧ types i ≠ 0) :
    predict_submission maxDists T x (k * T) (k * T) (2 * (k * T)) weights types params
      = Except.ok (packFun (some ((k * T / T : ℕ) : ℝ)) T (k * T) (k * T) (2 * (k * T))
          (fun i => some (weights i)) (fun i => some ((types i : ℝ)))
          (fun m => some (params m))) ∧
    ∀ d, d < T →
      (∀ c, c < k →
        packFun (some ((k * T / T : ℕ) : ℝ)) T (k * T) (k * T) (2 * (k * T))
          (fun i => some (weights i)) (fun i => some ((types i : ℝ)))
          (fun m => some (params m)) (d * (4 * k + 1) + (1 + c))
          = some (some (weights (d * k + c)))) ∧
      (∀ c, c < k →
        packFun (some ((k * T / T : ℕ) : ℝ)) T (k * T) (k * T) (2 * (k * T))
          (fun i => some (weights i)) (fun i => some ((types i : ℝ)))
          (fun m => some (params m)) (d * (4 * k + 1) + (k + 1 + c))
          = some (some ((types (d * k + c) : ℝ)))) ∧
      (∀ m, m < 2 * k →
        packFun (some ((k * T / T : ℕ) : ℝ)) T (k * T) (k * T) (2 * (k * T))
          (fun i => some (weights i)) (fun i => some ((types i : ℝ)))
          (fun m => some (params m)) (d * (4 * k + 1) + (2 * k + 1 + m))
          = some (some (params (d * (2 * k) + m)))) := by
  have hz : ¬ ∀ i, i < k * T → types i = 0 := by
    obtain ⟨i, hi, hne⟩ := hnz
    intro hall
    exact hne (hall i hi)
  constructor
  · rw [predict_submission_pass maxDists T x (k * T) (k * T) (2 * (k * T))
      weights params types (by omega) hz]
    rw [encodeRecord_div (some ((k * T / T : ℕ) : ℝ)) k T hT]
    rfl
  · intro d hd
    exact ⟨fun c hc => packFun_weights (some ((k * T / T : ℕ) : ℝ)) k T hT
             (fun i => some (weights i)) (fun i => some ((types i : ℝ)))
             (fun m => some (params m)) d c hd hc,
           fun c hc => packFun_types (some ((k * T / T : ℕ) : ℝ)) k T hT
             (fun i => some (weights i)) (fun i => some ((types i : ℝ)))
             (fun m => some (params m)) d c hd hc,
           fun m hm => packFun_params (some ((k * T / T : ℕ) : ℝ)) k T hT
             (fun i => some (weights i)) (fun i => some ((types i : ℝ)))
             (fun m => some (params m)) d m hd hm⟩

/-- Claim C9 witness: one nonzero type code, one dimension, one
component. -/
theorem claimC9_passthrough_witness :
    (∃ i, i < 1 * 1 ∧ (fun _ => (1:ℤ)) i ≠ 0) ∧
    (predict_submission 1 1 XInput.plain (1 * 1) (1 * 1) (2 * (1 * 1))
        (fun _ => (1:ℝ)) (fun _ => (1:ℤ)) (fun _ => (1:ℝ))
      = Except.ok (packFun (some ((1 * 1 / 1 : ℕ) : ℝ)) 1 (1 * 1) (1 * 1) (2 * (1 * 1))
          (fun i => some ((fun _ => (1:ℝ)) i)) (fun i => some (((fun _ => (1:ℤ)) i : ℝ)))
          (fun m => some ((fun _ => (1:ℝ)) m))) ∧
    ∀ d, d < 1 →
      (∀ c, c < 1 →
        packFun (some ((1 * 1 / 1 : ℕ) : ℝ)) 1 (1 * 1) (1 * 1) (2 * (1 * 1))
          (fun i => some ((fun _ => (1:ℝ)) i)) (fun i => some (((fun _ => (1:ℤ)) i : ℝ)))
          (fun m => some ((fun _ => (1:ℝ)) m)) (d * (4 * 1 + 1) + (1 + c))
          = some (some ((fun _ => (1:ℝ)) (d * 1 + c)))) ∧
      (∀ c, c < 1 →
        packFun (some ((1 * 1 / 1 : ℕ) : ℝ)) 1 (1 * 1) (1 * 1) (2 * (1 * 1))
          (fun i => some ((fun _ => (1:ℝ)) i)) (fun i => some (((fun _ => (1:ℤ)) i : ℝ)))
          (fun m => some ((fun _ => (1:ℝ)) m)) (d * (4 * 1 + 1) + (1 + 1 + c))
          = some (some (((fun _ => (1:ℤ)) (d * 1 + c) : ℝ)))) ∧
      (∀ m, m < 2 * 1 →
        packFun (some ((1 * 1 / 1 : ℕ) : ℝ)) 1 (1 * 1) (1 * 1) (2 * (1 * 1))
          (fun i => some ((fun _ => (1:ℝ)) i)) (fun i => some (((fun _ => (1:ℤ)) i : ℝ)))
          (fun m => some ((fun _ => (1:ℝ)) m)) (d * (4 * 1 + 1) + (2 * 1 + 1 + m))
          = some (some ((fun _ => (1:ℝ)) (d * (2 * 1) + m))))) :=
  ⟨⟨0, by norm_num, by norm_num⟩,
   claimC9_passthrough 1 1 1 XInput.plain (fun _ => (1:ℝ)) (fun _ => (1:ℤ))
     (fun _ => (1:ℝ)) (by norm_num) (by norm_num) ⟨0, by norm_num, by norm_num⟩⟩

/-- Claim C4 (amended): on the all-Gaussian prediction path, a component
std that is not positive raises nothing; the NaN of the Gaussian
log-density propagates into every conditional weight of every dimension
after the degenerate one, and the call still returns a record. -/
theorem claimC4_nanPropagation (maxDists k T Wn : ℕ) (y weights params : ℕ → ℝ)
    (types : ℕ → ℤ)
    (hk : 0 < k) (hT : 0 < T) (hmax : k * T ≤ maxDists)
    (hz : ∀ i, i < k * T → types i = 0)
    (i0 d c : ℕ) (hi0 : i0 < d) (hd : d < T) (hc : c < k)
    (hsig : sigmasCol params i0 ≤ 0) :
    predict_submission maxDists T (XInput.frame y) Wn (k * T) (2 * (k * T))
        weights types params
      = Except.ok (packFun (some ((k : ℕ) : ℝ)) T (k * T) (k * T) (2 * (k * T))
          (fun m => norm_w k weights params y m)
          (fun i => some ((types i : ℝ))) (fun m => some (params m))) ∧
    packFun (some ((k : ℕ) : ℝ)) T (k * T) (k * T) (2 * (k * T))
        (fun m => norm_w k weights params y m)
        (fun i => some ((types i : ℝ))) (fun m => some (params m))
        (d * (4 * k + 1) + (1 + c)) = some none := by
  have hkT : k * T / T = k := kdiv k T hT
  constructor
  · rw [predict_submission_frame maxDists T Wn (k * T) (2 * (k * T)) y weights params
      types (by omega) hz]
    rw [hkT]
    rw [encodeRecord_div (some ((k : ℕ) : ℝ)) k T hT]
    rfl
  · rw [packFun_weights (some ((k : ℕ) : ℝ)) k T hT
      (fun m => norm_w k weights params y m)
      (fun i => some ((types i : ℝ))) (fun m => some (params m)) d c hd hc]
    show some (norm_w k weights params y (d * k + c)) = some none
    rw [norm_w_index k d c hc,
      final_w_none k weights params y c d i0 hk hi0 hsig]

/-- Claim C4 witness for the amended statement: one component, two
dimensions, the dimension-0 std is -1. -/
theorem claimC4_nanPropagation_witness :
    (sigmasCol (fun m => ([0, -1, 0, 1] : List ℝ).getD m 0) 0 ≤ 0) ∧
    (predict_submission 2 2 (XInput.frame (fun _ => 0)) 2 (1 * 2) (2 * (1 * 2))
        (fun _ => 1) (fun _ => 0) (fun m => ([0, -1, 0, 1] : List ℝ).getD m 0)
      = Except.ok (packFun (some ((1 : ℕ) : ℝ)) 2 (1 * 2) (1 * 2) (2 * (1 * 2))
          (fun m => norm_w 1 (fun _ => 1) (fun m => ([0, -1, 0, 1] : List ℝ).getD m 0)
            (fun _ => 0) m)
          (fun i => some (((fun _ => (0:ℤ)) i : ℝ)))
          (fun m => some ((fun m => ([0, -1, 0, 1] : List ℝ).getD m 0) m))) ∧
    packFun (some ((1 : ℕ) : ℝ)) 2 (1 * 2) (1 * 2) (2 * (1 * 2))
        (fun m => norm_w 1 (fun _ => 1) (fun m => ([0, -1, 0, 1] : List ℝ).getD m 0)
          (fun _ => 0) m)
        (fun i => some (((fun _ => (0:ℤ)) i : ℝ)))
        (fun m => some ((fun m => ([0, -1, 0, 1] : List ℝ).getD m 0) m))
        (1 * (4 * 1 + 1) + (1 + 0)) = some none) :=
  ⟨by norm_num [sigmasCol],
   claimC4_nanPropagation 2 1 2 2 (fun _ => 0) (fun _ => 1)
     (fun m => ([0, -1, 0, 1] : List ℝ).getD m 0) (fun _ => 0)
     (by norm_num) (by norm_num) (by norm_num) (fun i _ => rfl)
     0 1 0 (by norm_num) (by norm_num) (by norm_num)
     (by norm_num [sigmasCol])⟩

/-- Claim C4 counterexample: with one Gaussian component on two target
dimensions and the dimension-0 std equal to 0, the prediction path raises
no error at all — it returns a record whose dimension-1 weight entry is
NaN (`some none`), refuting both the fail-fast `DegenerateComponentError`
and the no-NaN guarantee. -/
theorem claimC4_counterexample :
    predict_submission 2 2 (XInput.frame (fun _ => 0)) 2 (1 * 2) (2 * (1 * 2))
        (fun _ => 1) (fun _ => 0) (fun m => ([0, 0, 0, 1] : List ℝ).getD m 0)
      = Except.ok (packFun (some ((1 : ℕ) : ℝ)) 2 (1 * 2) (1 * 2) (2 * (1 * 2))
          (fun m => norm_w 1 (fun _ => 1) (fun m => ([0, 0, 0, 1] : List ℝ).getD m 0)
            (fun _ => 0) m)
          (fun i => some (((fun _ => (0:ℤ)) i : ℝ)))
          (fun m => some ((fun m => ([0, 0, 0, 1] : List ℝ).getD m 0) m))) ∧
    packFun (some ((1 : ℕ) : ℝ)) 2 (1 * 2) (1 * 2) (2 * (1 * 2))
        (fun m => norm_w 1 (fun _ => 1) (fun m => ([0, 0, 0, 1] : List ℝ).getD m 0)
          (fun _ => 0) m)
        (fun i => some (((fun _ => (0:ℤ)) i : ℝ)))
        (fun m => some ((fun m => ([0, 0, 0, 1] : List ℝ).getD m 0) m))
        (1 * (4 * 1 + 1) + (1 + 0)) = some none := by
  constructor
  · rw [predict_submission_frame 2 2 2 (1 * 2) (2 * (1 * 2)) (fun _ => 0) (fun _ => 1)
      (fun m => ([0, 0, 0, 1] : List ℝ).getD m 0) (fun _ => 0) (by norm_num) (fun i _ => rfl)]
    rw [show (1 * 2 / 2 : ℕ) = 1 by norm_num]
    rw [encodeRecord_div (some ((1 : ℕ) : ℝ)) 1 2 (by norm_num)]
    rfl
  · rw [packFun_weights (some ((1 : ℕ) : ℝ)) 1 2 (by norm_num)
      (fun m => norm_w 1 (fun _ => 1) (fun m => ([0, 0, 0, 1] : List ℝ).getD m 0)
        (fun _ => 0) m)
      (fun i => some (((fun _ => (0:ℤ)) i : ℝ)))
      (fun m => some ((fun m => ([0, 0, 0, 1] : List ℝ).getD m 0) m))
      1 0 (by norm_num) (by norm_num)]
    show some (norm_w 1 (fun _ => 1) (fun m => ([0, 0, 0, 1] : List ℝ).getD m 0)
      (fun _ => 0) (1 * 1 + 0)) = some none
    rw [norm_w_index 1 1 0 (by norm_num),
      final_w_none 1 (fun _ => 1) (fun m => ([0, 0, 0, 1] : List ℝ).getD m 0)
        (fun _ => 0) 0 1 0 (by norm_num) (by norm_num) (by norm_num [sigmasCol])]

/-- Claim C5 counterexample: with `n_targets = 2` and a single component
column (`1` is not divisible by `2`), no error of any kind is raised — the
call returns a record, and that record has unwritten (uninitialised)
columns, refuting both the `ShapeError` and the no-partial-output claim. -/
theorem claimC5_counterexample :
    encodeRecord (5:ℚ) 2 1 1 2 (fun _ => 1) (fun _ => 1) (fun i : ℕ => (i:ℚ))
      = Except.ok (packFun (5:ℚ) 2 1 1 2 (fun _ => 1) (fun _ => 1) (fun i : ℕ => (i:ℚ))) ∧
    packFun (5:ℚ) 2 1 1 2 (fun _ => 1) (fun _ => 1) (fun i : ℕ => (i:ℚ)) 2 = none ∧
    packFun (5:ℚ) 2 1 1 2 (fun _ => 1) (fun _ => 1) (fun i : ℕ => (i:ℚ)) 0 = some 5 :=
  ⟨rfl, by decide, by decide⟩

/-- Claim C5 (amended): there is no divisibility check and no
`ShapeError`; the per-dimension component count is floored.  For every
call whose component-slot column count `W` is not divisible by
`n_targets`, the packing either fails on a numpy broadcast mismatch in one
of its strided assignments, or returns a record with at least one
unwritten column. -/
theorem claimC5_noShapeCheck {α : Type} (kval : α) (T W : ℕ) (hT : 0 < T)
    (hnd : ¬ T ∣ W) (w t p : ℕ → α) :
    encodeRecord kval T W W (2 * W) w t p = Except.error () ∨
    (encodeRecord kval T W W (2 * W) w t p
        = Except.ok (packFun kval T W W (2 * W) w t p) ∧
      ∃ j, j < encodeCols T W W (2 * W) ∧
        packFun kval T W W (2 * W) w t p j = none) := by
  obtain ⟨k, r, hWkr, hrT, hkW, hrW⟩ :
      ∃ k r, W = k * T + r ∧ r < T ∧ W / T = k ∧ W % T = r :=
    ⟨W / T, W % T, by rw [Nat.mul_comm]; exact (Nat.div_add_mod W T).symm,
      Nat.mod_lt W hT, rfl, rfl⟩
  have hr1 : 1 ≤ r := by
    rcases Nat.eq_zero_or_pos r with h0 | h0
    · exact absurd (Nat.dvd_of_mod_eq_zero (by omega)) hnd
    · exact h0
  have hT2 : 2 ≤ T := by
    by_contra hlt2
    have h1 : T = 1 := by omega
    rw [h1] at hnd
    exact hnd (one_dvd W)
  have hstep : encodeStep T W W (2 * W) = 4 * k + 1 + 4 * r / T := by
    unfold encodeStep
    rw [show W + W + 2 * W + T = T * (4 * k + 1) + 4 * r by rw [hWkr]; ring,
      Nat.mul_add_div hT]
  have hcols : encodeCols T W W (2 * W) = T * (4 * k + 1) + 4 * r := by
    unfold encodeCols
    rw [hWkr]
    ring
  have hq2 : 2 * W / T = 2 * k + 2 * r / T := by
    rw [show 2 * W = T * (2 * k) + 2 * r by rw [hWkr]; ring, Nat.mul_add_div hT]
  by_cases hdvd : T ∣ 4 * r
  · obtain ⟨q, hq⟩ := hdvd
    have hq1 : 1 ≤ q := by
      rcases Nat.eq_zero_or_pos q with h0 | h0
      · exfalso
        rw [h0, Nat.mul_zero] at hq
        omega
      · exact h0
    have hq4 : 4 * r / T = q := by rw [hq, Nat.mul_div_cancel_left q hT]
    have hq2lt : 2 * r / T < q := by
      have h1 : (2 * r / T) * T ≤ 2 * r := Nat.div_mul_le_self (2 * r) T
      have hq' : 4 * r = q * T := by rw [hq]; ring
      have h3 : (2 * r / T) * T < q * T := by omega
      exact lt_of_mul_lt_mul_right h3 (Nat.zero_le T)
    by_cases hall : (assignList kval (W / T) T W W (2 * W) w t p).all
        (checkAssign (encodeCols T W W (2 * W)) (encodeStep T W W (2 * W))) = true
    · right
      constructor
      · unfold encodeRecord
        rw [if_pos hall]
      · refine ⟨encodeStep T W W (2 * W) - 1, ?_, ?_⟩
        · have hs2 : 2 ≤ encodeStep T W W (2 * W) := by rw [hstep, hq4]; omega
          have hsle : encodeStep T W W (2 * W) ≤ T * encodeStep T W W (2 * W) :=
            Nat.le_mul_of_pos_left _ hT
          have hCs : encodeCols T W W (2 * W) = T * encodeStep T W W (2 * W) := by
            rw [hstep, hcols, hq4, hq]
            ring
          omega
        · unfold packFun
          rw [hkW]
          apply foldl_applyAssign_skip
          intro a ha hwa
          have hble := assignList_tgtStart_le ha
          rw [hq2] at hble
          have hlt : a.tgtStart < encodeStep T W W (2 * W) - 1 := by
            rw [hstep, hq4]
            omega
          obtain ⟨hjC, hle, hmod⟩ := hwa
          have hsub : encodeStep T W W (2 * W) - 1 - a.tgtStart
              < encodeStep T W W (2 * W) := by omega
          rw [Nat.mod_eq_of_lt hsub] at hmod
          omega
    · left
      unfold encodeRecord
      rw [if_neg hall]
  · left
    have hq0 : 0 < 4 * r % T := by
      rcases Nat.eq_zero_or_pos (4 * r % T) with h0 | h0
      · exact absurd (Nat.dvd_of_mod_eq_zero h0) hdvd
      · exact h0
    by_cases hall : (assignList kval (W / T) T W W (2 * W) w t p).all
        (checkAssign (encodeCols T W W (2 * W)) (encodeStep T W W (2 * W))) = true
    · exfalso
      have hsz := List.all_eq_true.mp hall ⟨0, 0, 1, T, fun _ => kval⟩
        (mem_assignList.mpr (Or.inl rfl))
      unfold checkAssign at hsz
      dsimp only at hsz
      rw [countFrom_one] at hsz
      have hCgt : T * encodeStep T W W (2 * W) + 1 ≤ encodeCols T W W (2 * W) := by
        rw [hstep, hcols]
        have hdm := Nat.div_add_mod (4 * r) T
        have hmul : T * (4 * k + 1 + 4 * r / T) = T * (4 * k + 1) + T * (4 * r / T) := by
          ring
        omega
      have hs0 : 0 < encodeStep T W W (2 * W) := by
        rw [hstep]
        exact Nat.lt_of_lt_of_le (by omega) (Nat.le_add_right (4 * k + 1) (4 * r / T))
      have hsle : encodeStep T W W (2 * W) ≤ T * encodeStep T W W (2 * W) :=
        Nat.le_mul_of_pos_left _ hT
      have hcf : T + 1 ≤ countFrom (encodeCols T W W (2 * W))
          (encodeStep T W W (2 * W)) 0 := by
        unfold countFrom
        rw [if_pos (by omega)]
        rw [Nat.le_div_iff_mul_le hs0]
        have hexp : (T + 1) * encodeStep T W W (2 * W)
            = T * encodeStep T W W (2 * W) + encodeStep T W W (2 * W) := by ring
        omega
      simp only [Bool.or_eq_true, beq_iff_eq] at hsz
      omega
    · unfold encodeRecord
      rw [if_neg hall]

/-- Claim C5 witness for the amended statement, at the concrete shape of
the counterexample (1 column, 2 targets). -/
theorem claimC5_noShapeCheck_witness :
    (¬ (2 ∣ 1)) ∧
    (encodeRecord (7:ℚ) 2 1 1 (2 * 1) (fun _ => 1) (fun _ => 2) (fun _ => 3)
        = Except.error () ∨
      (encodeRecord (7:ℚ) 2 1 1 (2 * 1) (fun _ => 1) (fun _ => 2) (fun _ => 3)
          = Except.ok (packFun (7:ℚ) 2 1 1 (2 * 1) (fun _ => 1) (fun _ => 2) (fun _ => 3)) ∧
        ∃ j, j < encodeCols 2 1 1 (2 * 1) ∧
          packFun (7:ℚ) 2 1 1 (2 * 1) (fun _ => 1) (fun _ => 2) (fun _ => 3) j = none)) :=
  ⟨by decide,
   claimC5_noShapeCheck (7:ℚ) 2 1 (by norm_num) (by decide) (fun _ => 1) (fun _ => 2)
     (fun _ => 3)⟩

/-- Claim C1 evaluation at the failing input (the claim is right, the code
is wrong): two Gaussian components on two dimensions, marginal weights all
1/2, realized targets 0, dimension-0 component means (0, 1) with stds 1.
The source fills `l_probs[:, j, i]` from `mus[:, i]` and `sigmas[:, i]` —
the component index `j` never enters — so every exclusion ratio is
`exp(0) = 1` and the weight written for component 0 of dimension 1 is the
marginal 1/2, whereas the formula of the specification gives
`1 / (1 + exp(-1/2))`, which differs from 1/2. -/
theorem claimC1_eval :
    norm_w 2 (fun _ => (1/2 : ℝ))
        (fun m => ([0, 1, 1, 1, 0, 1, 0, 1] : List ℝ).getD m 0) (fun _ => 0) 2
      = some (1/2) ∧
    specCondWeight 2 (fun _ => (1/2 : ℝ))
        (fun m => ([0, 1, 1, 1, 0, 1, 0, 1] : List ℝ).getD m 0) (fun _ => 0) 0 1
      ≠ 1/2 := by
  have hsg : ∀ i, i < 1 →
      0 < sigmasCol (fun m => ([0, 1, 1, 1, 0, 1, 0, 1] : List ℝ).getD m 0) i := by
    intro i hi
    have h0 : i = 0 := by omega
    subst h0
    norm_num [sigmasCol]
  constructor
  · have h20 : (2:ℕ) % 2 = 0 := rfl
    have h21 : (2:ℕ) / 2 = 1 := rfl
    unfold norm_w
    rw [h20, h21]
    unfold final_w
    rw [diffsVal_of_pos 2 (fun _ => (1/2 : ℝ))
      (fun m => ([0, 1, 1, 1, 0, 1, 0, 1] : List ℝ).getD m 0) (fun _ => 0) 0 1 hsg]
    rw [show (∑ j in Finset.range 2, (fun _ => (1/2:ℝ)) j) = 1 by
      rw [Finset.sum_range_succ, Finset.sum_range_succ, Finset.sum_range_zero]
      norm_num]
    simp
  · have hE0 : specExclusion 2 (fun m => ([0, 1, 1, 1, 0, 1, 0, 1] : List ℝ).getD m 0)
        (fun _ => 0) 0 1 = -Real.log (Real.sqrt (2 * Real.pi) * 1) := by
      unfold specExclusion
      rw [Finset.sum_range_succ, Finset.sum_range_zero]
      unfold gaussLogpdfR musCol sigmasCol
      norm_num
    have hE1 : specExclusion 2 (fun m => ([0, 1, 1, 1, 0, 1, 0, 1] : List ℝ).getD m 0)
        (fun _ => 0) 1 1 = -(1/2) - Real.log (Real.sqrt (2 * Real.pi) * 1) := by
      unfold specExclusion
      rw [Finset.sum_range_succ, Finset.sum_range_zero]
      unfold gaussLogpdfR musCol sigmasCol
      norm_num
    intro hcontra
    unfold specCondWeight at hcontra
    rw [Finset.sum_range_succ, Finset.sum_range_succ, Finset.sum_range_zero,
      hE0, hE1] at hcontra
    have hA := Real.exp_pos (-Real.log (Real.sqrt (2 * Real.pi) * 1))
    have hB := Real.exp_pos (-(1/2) - Real.log (Real.sqrt (2 * Real.pi) * 1))
    have hden : (0:ℝ) + (fun _ => (1/2:ℝ)) 0
          * Real.exp (-Real.log (Real.sqrt (2 * Real.pi) * 1))
        + (fun _ => (1/2:ℝ)) 1
          * Real.exp (-(1/2) - Real.log (Real.sqrt (2 * Real.pi) * 1)) ≠ 0 := by
      show (0:ℝ) + 1/2 * _ + 1/2 * _ ≠ 0
      positivity
    rw [div_eq_iff hden] at hcontra
    have hAB : Real.exp (-Real.log (Real.sqrt (2 * Real.pi) * 1))
        = Real.exp (-(1/2) - Real.log (Real.sqrt (2 * Real.pi) * 1)) := by
      have hc2 : (1/2 : ℝ) * Real.exp (-Real.log (Real.sqrt (2 * Real.pi) * 1))
          = 1/2 * ((0:ℝ) + 1/2 * Real.exp (-Real.log (Real.sqrt (2 * Real.pi) * 1))
            + 1/2 * Real.exp (-(1/2) - Real.log (Real.sqrt (2 * Real.pi) * 1))) := by
        exact hcontra
      linarith
    have hlog := Real.exp_eq_exp.mp hAB
    linarith

/-- Claim C7 counterexample: a two-row batch with the in-contract mixture
weights (0.3, 0.7) per row on one target dimension.  The flattened
probability vector handed to the categorical sampler sums to 2, numpy
rejects it, and `step` raises instead of returning one sample per row —
it never returns two rows. -/
theorem claimC7_counterexample :
    step 1 2 2 4 (fun _ c => if c = 0 then (3/10 : ℝ) else 7/10) (fun _ _ => 1) rngId
      = Except.error StepErr.probCheck := by
  unfold step
  rw [if_pos (by norm_num)]
  rw [if_neg ?hn]
  case hn =>
    intro hcon
    have hsum := hcon.2
    rw [show (2 * 2 / 1 : ℕ) = 4 by norm_num] at hsum
    rw [Finset.sum_range_succ, Finset.sum_range_succ, Finset.sum_range_succ,
      Finset.sum_range_succ, Finset.sum_range_zero] at hsum
    norm_num [choiceTol] at hsum

/-- Claim C7 (amended): the sampling step never returns one sample per
row; every successful call returns exactly one sampled vector (built from
the first row of the batch). -/
theorem claimC7_singleSample (T n Wn Wp : ℕ) (weights params : ℕ → ℕ → ℝ)
    (rng : Rng) (rows : List (ℕ → ℝ))
    (h : step T n Wn Wp weights params rng = Except.ok rows) :
    rows.length = 1 := by
  unfold step at h
  split_ifs at h <;>
    first
      | exact Except.noConfusion h
      | (simp only [Except.ok.injEq] at h
         rw [← h]
         rfl)

/-- Claim C7 witness: a successful single-row call returning exactly one
sampled vector. -/
theorem claimC7_singleSample_witness :
    step 1 1 1 2 (fun _ _ => (1:ℝ)) (fun _ _ => (1:ℝ)) rngId
      = Except.ok [rngId.mvnormal
          (fun t => (fun _ _ => (1:ℝ)) 0 (2 * (t * (2 / 2 / 1) +
            rngId.choice (1 * 1 / 1)
              (fun q => (fun _ _ => (1:ℝ)) (q / 1) (q % 1)))))
          (fun a b => if a = b ∧ a < 1 then
            ((fun _ _ => (1:ℝ)) 0 (2 * (a * (2 / 2 / 1) +
              rngId.choice (1 * 1 / 1)
                (fun q => (fun _ _ => (1:ℝ)) (q / 1) (q % 1))) + 1)) ^ 2
            else 0)] ∧
    [rngId.mvnormal
        (fun t => (fun _ _ => (1:ℝ)) 0 (2 * (t * (2 / 2 / 1) +
          rngId.choice (1 * 1 / 1)
            (fun q => (fun _ _ => (1:ℝ)) (q / 1) (q % 1)))))
        (fun a b => if a = b ∧ a < 1 then
          ((fun _ _ => (1:ℝ)) 0 (2 * (a * (2 / 2 / 1) +
            rngId.choice (1 * 1 / 1)
              (fun q => (fun _ _ => (1:ℝ)) (q / 1) (q % 1))) + 1)) ^ 2
          else 0)].length = 1 := by
  have h1 : step 1 1 1 2 (fun _ _ => (1:ℝ)) (fun _ _ => (1:ℝ)) rngId
      = Except.ok [rngId.mvnormal
          (fun t => (fun _ _ => (1:ℝ)) 0 (2 * (t * (2 / 2 / 1) +
            rngId.choice (1 * 1 / 1)
              (fun q => (fun _ _ => (1:ℝ)) (q / 1) (q % 1)))))
          (fun a b => if a = b ∧ a < 1 then
            ((fun _ _ => (1:ℝ)) 0 (2 * (a * (2 / 2 / 1) +
              rngId.choice (1 * 1 / 1)
                (fun q => (fun _ _ => (1:ℝ)) (q / 1) (q % 1))) + 1)) ^ 2
            else 0)] := by
    unfold step
    rw [if_pos (by norm_num)]
    rw [if_pos ⟨fun q _ => by norm_num,
      by rw [show (1 * 1 / 1 : ℕ) = 1 by norm_num, Finset.sum_range_one]
         norm_num [choiceTol]⟩]
    rw [if_pos (by decide :
      rngId.choice (1 * 1 / 1) (fun q => (fun _ _ => (1:ℝ)) (q / 1) (q % 1)) < 2 / 2 / 1)]
  exact ⟨h1, claimC7_singleSample 1 1 1 2 (fun _ _ => (1:ℝ)) (fun _ _ => (1:ℝ)) rngId _ h1⟩

/-- Claim C8 counterexample: a two-row batch with one component on two
target dimensions and the in-contract weights (every per-dimension group
summing to 1).  The categorical probability vector handed to
`rng.choice` sums to 2, so the call raises — no component is drawn from
the first dimension marginal weights and no vector is returned. -/
theorem claimC8_counterexample :
    step 2 2 2 4 (fun _ _ => (1:ℝ)) (fun _ _ => 1) rngId
      = Except.error StepErr.probCheck := by
  unfold step
  rw [if_pos (by norm_num)]
  rw [if_neg ?hn]
  case hn =>
    intro hcon
    have hsum := hcon.2
    rw [show (2 * 2 / 2 : ℕ) = 2 by norm_num] at hsum
    rw [Finset.sum_range_succ, Finset.sum_range_succ, Finset.sum_range_zero] at hsum
    norm_num [choiceTol] at hsum

/-- Claim C8 (amended): on a single-row batch with `k` components per
dimension whose first-dimension marginal weights pass the categorical
validation, exactly one component index is drawn from those weights, the
returned value is the single multivariate-normal oracle draw whose mean is
the selected component per-dimension means and whose covariance is
diagonal with the squared stds, and the output is a function of the
supplied random source alone (equal random state gives equal output). -/
theorem claimC8_singleRowDraw (T k : ℕ) (weights params : ℕ → ℕ → ℝ) (rng : Rng)
    (hT : 0 < T) (hk : 0 < k)
    (hpos : ∀ q, q < k → 0 ≤ weights 0 q)
    (hsum : |(∑ q in Finset.range k, weights 0 q) - 1| ≤ choiceTol)
    (hsel : rng.choice k (fun q => weights (q / (k * T)) (q % (k * T))) < k) :
    step T 1 (k * T) (2 * (k * T)) weights params rng
      = Except.ok [rng.mvnormal
          (fun t => params 0 (2 * (t * k + rng.choice k
            (fun q => weights (q / (k * T)) (q % (k * T))))))
          (fun a b => if a = b ∧ a < T then
            (params 0 (2 * (a * k + rng.choice k
              (fun q => weights (q / (k * T)) (q % (k * T)))) + 1)) ^ 2
            else 0)] ∧
    (∀ q, q < k → weights (q / (k * T)) (q % (k * T)) = weights 0 q) ∧
    (∀ rng2 : Rng, rng2 = rng →
      step T 1 (k * T) (2 * (k * T)) weights params rng2
        = step T 1 (k * T) (2 * (k * T)) weights params rng) := by
  have hkkT : k ≤ k * T := Nat.le_mul_of_pos_right k hT
  have hagree : ∀ q, q < k → weights (q / (k * T)) (q % (k * T)) = weights 0 q := by
    intro q hq
    rw [Nat.div_eq_of_lt (by omega), Nat.mod_eq_of_lt (by omega)]
  refine ⟨?_, hagree, fun rng2 h2 => by rw [h2]⟩
  unfold step
  rw [one_mul, kdiv k T hT, show 2 * (k * T) / 2 = k * T by omega, kdiv k T hT]
  rw [if_pos ⟨Nat.mul_mod_left k T, Nat.mul_mod_left k T⟩]
  rw [if_pos ⟨fun q hq => by rw [hagree q hq]; exact hpos q hq,
    by rw [Finset.sum_congr rfl (fun q hq => hagree q (Finset.mem_range.mp hq))]
       exact hsum⟩]
  rw [if_pos hsel]

/-- Claim C8 witness: a single-row call with one component and one
dimension. -/
theorem claimC8_singleRowDraw_witness :
    (|(∑ q in Finset.range 1, (fun _ _ => (1:ℝ)) 0 q) - 1| ≤ choiceTol) ∧
    (step 1 1 (1 * 1) (2 * (1 * 1)) (fun _ _ => (1:ℝ)) (fun _ _ => (1:ℝ)) rngId
      = Except.ok [rngId.mvnormal
          (fun t => (fun _ _ => (1:ℝ)) 0 (2 * (t * 1 + rngId.choice 1
            (fun q => (fun _ _ => (1:ℝ)) (q / (1 * 1)) (q % (1 * 1))))))
          (fun a b => if a = b ∧ a < 1 then
            ((fun _ _ => (1:ℝ)) 0 (2 * (a * 1 + rngId.choice 1
              (fun q => (fun _ _ => (1:ℝ)) (q / (1 * 1)) (q % (1 * 1)))) + 1)) ^ 2
            else 0)] ∧
    (∀ q, q < 1 → (fun _ _ => (1:ℝ)) (q / (1 * 1)) (q % (1 * 1))
        = (fun _ _ => (1:ℝ)) 0 q) ∧
    (∀ rng2 : Rng, rng2 = rngId →
      step 1 1 (1 * 1) (2 * (1 * 1)) (fun _ _ => (1:ℝ)) (fun _ _ => (1:ℝ)) rng2
        = step 1 1 (1 * 1) (2 * (1 * 1)) (fun _ _ => (1:ℝ)) (fun _ _ => (1:ℝ)) rngId)) :=
  ⟨by rw [Finset.sum_range_one]; norm_num [choiceTol],
   claimC8_singleRowDraw 1 1 (fun _ _ => (1:ℝ)) (fun _ _ => (1:ℝ)) rngId
     (by norm_num) (by norm_num) (fun q _ => by norm_num)
     (by rw [Finset.sum_range_one]; norm_num [choiceTol])
     (by decide :
       rngId.choice 1 (fun q => (fun _ _ => (1:ℝ)) (q / (1 * 1)) (q % (1 * 1))) < 1)⟩

end GenerativeRegressorFull
